import Mathlib

/-!
Shallow embedding of the `security-txt` Rust crate (`src/lib.rs`) and proofs
about its behaviour.  Strings are modelled as lists of characters; Rust
`Result` is modelled as `Except`; the external value parsers (the `url`,
`language_tags` and `chrono` crates) are modelled from the specification as
noted on each definition.
-/

deriving instance DecidableEq for Except

namespace SecTxt

/-- Rust `&str` / `String`, modelled as a list of characters. -/
abbrev Str := List Char

/-- `ParseError` from lib.rs: an error carrying a message string. -/
structure ParseError where
  msg : Str
deriving DecidableEq

/-- Modelled from the spec: a parsed absolute URL (the `url` crate's `Url`,
which is not part of this repository).  The model keeps the raw text of a
value that satisfied the absolute-URL shape check; normalisation performed
by the real crate is not modelled. -/
structure Url where
  raw : Str
deriving DecidableEq

/-- Modelled from the spec: a parsed BCP-47-style language tag (the
`language_tags` crate, not part of this repository).  The model keeps the
raw token text. -/
structure LanguageTag where
  raw : Str
deriving DecidableEq

/-- `chrono::DateTime<FixedOffset>`: an instant together with its retained
(not normalised away) UTC offset. -/
structure DateTimeFixedOffset where
  secondsUtc : Int
  offsetSeconds : Int
deriving DecidableEq

/-- The `Field` enum from lib.rs. -/
inductive Field where
  | Acknowledgments (u : Url)
  | Canonical (u : Url)
  | Contact (u : Url)
  | Encryption (u : Url)
  | Expires (dt : DateTimeFixedOffset)
  | Hiring (u : Url)
  | Policy (u : Url)
  | PreferredLanguages (ls : List LanguageTag)
  | Extension (name value : Str)
deriving DecidableEq

/-- The `Line` enum from lib.rs. -/
inductive Line where
  | Field (f : Field)
  | Comment (s : Str)
deriving DecidableEq

/-- `split_at_str` from lib.rs: `string.splitn(2, pattern)`, i.e. split at
the first occurrence of `pattern`; `none` when the pattern is absent. -/
def split_at_str : Str → Char → Option (Str × Str)
  | [], _ => none
  | c :: rest, p =>
    if c = p then some ([], rest)
    else
      match split_at_str rest p with
      | none => none
      | some (a, b) => some (c :: a, b)

/-- Rust `str::to_lowercase` as used on field names.  Modelled as per-char
ASCII lowercasing (the recognised field names are all ASCII; Unicode special
casing of the real function is not modelled). -/
def to_lowercase (s : Str) : Str := s.map Char.toLower

/-- Modelled from the spec: `Url::parse` of the `url` crate (not part of
this repository) — "value must parse as an absolute URL per standard URL
grammar".  The model accepts `scheme:rest` with an alphabetic-led scheme
and a nonempty remainder, keeping the raw text. -/
def Url.parse (s : Str) : Except ParseError Url :=
  match split_at_str s ':' with
  | none => .error ⟨("relative URL without a base").data⟩
  | some (scheme, rest) =>
    match scheme with
    | [] => .error ⟨("relative URL without a base").data⟩
    | c :: cs =>
      if c.isAlpha && cs.all (fun d => d.isAlphanum || d = '+' || d = '-' || d = '.') && !rest.isEmpty
      then .ok ⟨s⟩
      else .error ⟨("relative URL without a base").data⟩

/-- Rust `str::split(sep)`: split at every occurrence of `sep`, keeping
empty pieces (splitting the empty string yields one empty piece). -/
def splitOnChar : Str → Char → List Str
  | [], _ => [[]]
  | c :: rest, p =>
    if c = p then [] :: splitOnChar rest p
    else
      match splitOnChar rest p with
      | [] => [[c]]
      | l :: ls => (c :: l) :: ls

/-- Modelled from the spec: validity of a BCP-47-style language tag (the
grammar checked by the `language_tags` crate, which is not part of this
repository) — a hyphen-separated sequence of subtags, the primary subtag
alphabetic and the rest alphanumeric, each of length 1..8. -/
def langTagValid (s : Str) : Bool :=
  match splitOnChar s '-' with
  | [] => false
  | first :: rest =>
    (!first.isEmpty) && first.all Char.isAlpha && decide (first.length ≤ 8)
      && rest.all (fun t => (!t.isEmpty) && t.all Char.isAlphanum && decide (t.length ≤ 8))

/-- Modelled from the spec: `LanguageTag::from_str` of the `language_tags`
crate (not part of this repository) — each token "must parse as a valid
language tag (BCP-47-style)".  The model keeps the raw token on success. -/
def LanguageTag.from_str (s : Str) : Except ParseError LanguageTag :=
  if langTagValid s then .ok ⟨s⟩ else .error ⟨("invalid language tag").data⟩

/-- `parse_rfc5322_datetime` from lib.rs: `DateTime::parse_from_str(string, "")`
with an empty format string (the body is a `TODO` in the source).  chrono's
`parse` consumes the format items (here: none) and then fails with the
`TOO_LONG` error ("trailing input") whenever input remains, and
`Parsed::to_datetime` fails with `NOT_ENOUGH` ("input is not enough for
unique date and time") when nothing was parsed — so this function fails on
every input. -/
def parse_rfc5322_datetime (s : Str) : Except ParseError DateTimeFixedOffset :=
  if s.isEmpty then .error ⟨("input is not enough for unique date and time").data⟩
  else .error ⟨("trailing input").data⟩

/-- Rust `iter.map(LanguageTag::from_str).collect::<Result<Vec, _>>()`:
collect all tokens, short-circuiting at the first failing token. -/
def collectTags : List Str → Except ParseError (List LanguageTag)
  | [] => .ok []
  | t :: ts =>
    match LanguageTag.from_str t with
    | .error e => .error e
    | .ok tag =>
      match collectTags ts with
      | .error e => .error e
      | .ok tags => .ok (tag :: tags)

/-- The list of lower-cased field names recognised by `Field::from_str`. -/
def recognizedNames : List Str :=
  [("acknowledgments").data, ("canonical").data, ("contact").data,
   ("encryption").data, ("expires").data, ("hiring").data, ("policy").data,
   ("preferred-languages").data]

/-- The dispatch-on-lowercased-name part of `Field::from_str` from lib.rs:
`name` and `value` are the two halves produced by `split_at_str`. -/
def Field.dispatch (name value : Str) : Except ParseError Field :=
  if to_lowercase name = ("acknowledgments").data then (Url.parse value).map Field.Acknowledgments
  else if to_lowercase name = ("canonical").data then (Url.parse value).map Field.Canonical
  else if to_lowercase name = ("contact").data then (Url.parse value).map Field.Contact
  else if to_lowercase name = ("encryption").data then (Url.parse value).map Field.Encryption
  else if to_lowercase name = ("expires").data then (parse_rfc5322_datetime value).map Field.Expires
  else if to_lowercase name = ("hiring").data then (Url.parse value).map Field.Hiring
  else if to_lowercase name = ("policy").data then (Url.parse value).map Field.Policy
  else if to_lowercase name = ("preferred-languages").data then
    (collectTags (splitOnChar value ',')).map Field.PreferredLanguages
  else .ok (.Extension name value)

/-- `Field::from_str` from lib.rs: split the line at the first `:`;
without a `:` fail with the missing-separator error. -/
def Field.from_str (string : Str) : Except ParseError Field :=
  match split_at_str string ':' with
  | some (name, value) => Field.dispatch name value
  | none => .error ⟨("Missing `:`").data⟩

/-- `Line::from_str` from lib.rs: a line starting with `#` is a comment
holding the remainder of the line; otherwise it is a field line. -/
def Line.from_str : Str → Except ParseError Line
  | [] => (Field.from_str []).map Line.Field
  | c :: rest =>
    if c = '#' then .ok (.Comment rest)
    else (Field.from_str (c :: rest)).map Line.Field

/-- `str::split_inclusive('\n')`: pieces of the string, each piece ending
with the newline that terminated it (the last piece may lack one); the
empty string yields no pieces. -/
def splitInclusiveNewline : Str → List Str
  | [] => []
  | c :: rest =>
    if c = '\n' then [c] :: splitInclusiveNewline rest
    else
      match splitInclusiveNewline rest with
      | [] => [[c]]
      | l :: ls => (c :: l) :: ls

/-- The per-piece map of Rust `str::lines`: strip one trailing `\n`, and if
one was stripped also strip one trailing `\r`. -/
def lineMap (l : Str) : Str :=
  if l.getLast? = some '\n' then
    if l.dropLast.getLast? = some '\r' then l.dropLast.dropLast else l.dropLast
  else l

/-- Rust `str::lines()` as used by `parse_fields`. -/
def rustLines (s : Str) : List Str := (splitInclusiveNewline s).map lineMap

/-- The `filter_map` closure of `parse_fields` from lib.rs applied to one
line: fields become stream entries, comments are skipped, errors become
error entries. -/
def lineEntry (line : Str) : Option (Except ParseError Field) :=
  match Line.from_str line with
  | .ok (.Field f) => some (.ok f)
  | .ok (.Comment _) => none
  | .error e => some (.error e)

/-- `parse_fields` from lib.rs: the field stream over the whole input. -/
def parse_fields (s : Str) : List (Except ParseError Field) :=
  (rustLines s).filterMap lineEntry

/-- The `SecurityTxt` struct from lib.rs. -/
structure SecurityTxt where
  acknowledgments : List Url
  canonical : List Url
  contacts : Url × List Url
  encryptions : List Url
  expires : DateTimeFixedOffset
  hiring : List Url
  policies : List Url
  preferred_languages : List LanguageTag
  extensions : List (Str × Str)
deriving DecidableEq

/-- The mutable accumulator of `SecurityTxt::from_str`, made explicit. -/
structure AggState where
  acknowledgments : List Url
  canonical : List Url
  contacts : Option (Url × List Url)
  encryptions : List Url
  expires : Option DateTimeFixedOffset
  hiring : List Url
  policies : List Url
  preferred_languages : Option (List LanguageTag)
  extensions : List (Str × Str)
deriving DecidableEq

/-- The initial accumulator of `SecurityTxt::from_str`. -/
def initAgg : AggState := ⟨[], [], none, [], none, [], [], none, []⟩

/-- One iteration of the `for field in parse_fields(string)` loop of
`SecurityTxt::from_str`, on an already-parsed field. -/
def stepField (st : AggState) : Field → Except ParseError AggState
  | .Acknowledgments u =>
    .ok ⟨st.acknowledgments ++ [u], st.canonical, st.contacts, st.encryptions, st.expires,
         st.hiring, st.policies, st.preferred_languages, st.extensions⟩
  | .Canonical u =>
    .ok ⟨st.acknowledgments, st.canonical ++ [u], st.contacts, st.encryptions, st.expires,
         st.hiring, st.policies, st.preferred_languages, st.extensions⟩
  | .Contact u =>
    match st.contacts with
    | some (first, rest) =>
      .ok ⟨st.acknowledgments, st.canonical, some (first, rest ++ [u]), st.encryptions,
           st.expires, st.hiring, st.policies, st.preferred_languages, st.extensions⟩
    | none =>
      .ok ⟨st.acknowledgments, st.canonical, some (u, []), st.encryptions, st.expires,
           st.hiring, st.policies, st.preferred_languages, st.extensions⟩
  | .Encryption u =>
    .ok ⟨st.acknowledgments, st.canonical, st.contacts, st.encryptions ++ [u], st.expires,
         st.hiring, st.policies, st.preferred_languages, st.extensions⟩
  | .Expires dt =>
    match st.expires with
    | some _ => .error ⟨("The Expires field must only appear once").data⟩
    | none =>
      .ok ⟨st.acknowledgments, st.canonical, st.contacts, st.encryptions, some dt,
           st.hiring, st.policies, st.preferred_languages, st.extensions⟩
  | .Hiring u =>
    .ok ⟨st.acknowledgments, st.canonical, st.contacts, st.encryptions, st.expires,
         st.hiring ++ [u], st.policies, st.preferred_languages, st.extensions⟩
  | .Policy u =>
    .ok ⟨st.acknowledgments, st.canonical, st.contacts, st.encryptions, st.expires,
         st.hiring, st.policies ++ [u], st.preferred_languages, st.extensions⟩
  | .PreferredLanguages ls =>
    match st.preferred_languages with
    | some _ => .error ⟨("The Preferred-Languages field must only appear once").data⟩
    | none =>
      .ok ⟨st.acknowledgments, st.canonical, st.contacts, st.encryptions, st.expires,
           st.hiring, st.policies, some ls, st.extensions⟩
  | .Extension s1 s2 =>
    .ok ⟨st.acknowledgments, st.canonical, st.contacts, st.encryptions, st.expires,
         st.hiring, st.policies, st.preferred_languages, st.extensions ++ [(s1, s2)]⟩

/-- The whole `for` loop of `SecurityTxt::from_str`: a stream error is
returned immediately (`field?`), then the field is folded into the state. -/
def runFields : AggState → List (Except ParseError Field) → Except ParseError AggState
  | st, [] => .ok st
  | _, .error e :: _ => .error e
  | st, .ok f :: rs =>
    match stepField st f with
    | .error e => .error e
    | .ok st' => runFields st' rs

/-- The document-level checks after the loop of `SecurityTxt::from_str`:
`contacts` must be set (checked first), `expires` must be set, and
`preferred_languages` defaults to the empty list. -/
def finishAgg (st : AggState) : Except ParseError SecurityTxt :=
  match st.contacts with
  | none => .error ⟨("Must have at least one Contact field").data⟩
  | some cs =>
    match st.expires with
    | none => .error ⟨("Must have an Expires field").data⟩
    | some dt =>
      .ok ⟨st.acknowledgments, st.canonical, cs, st.encryptions, dt,
           st.hiring, st.policies, st.preferred_languages.getD [], st.extensions⟩

/-- The body of `SecurityTxt::from_str` applied to an explicit field
stream: fold the stream, then run the document-level checks. -/
def aggregate (rs : List (Except ParseError Field)) : Except ParseError SecurityTxt :=
  match runFields initAgg rs with
  | .error e => .error e
  | .ok st => finishAgg st

/-- `SecurityTxt::from_str` from lib.rs. -/
def SecurityTxt.from_str (string : Str) : Except ParseError SecurityTxt :=
  aggregate (parse_fields string)

/-- `parse` from lib.rs. -/
def parse (string : Str) : Except ParseError SecurityTxt :=
  SecurityTxt.from_str string

/-- Does a line start with `#` (and hence parse as a comment)? -/
def isCommentLine : Str → Bool
  | [] => false
  | c :: _ => c == '#'

/-- Is a stream entry a successful field? -/
def isOkExcept {α : Type} : Except ParseError α → Bool
  | .ok _ => true
  | .error _ => false

/-- Does every entry of a field stream hold a successfully parsed field? -/
def allOk (rs : List (Except ParseError Field)) : Bool :=
  rs.all (fun r => isOkExcept r)

/-- The successfully parsed fields of a stream, in order. -/
def okFields (rs : List (Except ParseError Field)) : List Field :=
  rs.filterMap (fun r => match r with | .ok f => some f | .error _ => none)

/-- Is a field a Contact field? -/
def isContactField : Field → Bool
  | .Acknowledgments _ => false
  | .Canonical _ => false
  | .Contact _ => true
  | .Encryption _ => false
  | .Expires _ => false
  | .Hiring _ => false
  | .Policy _ => false
  | .PreferredLanguages _ => false
  | .Extension _ _ => false

/-- Is a field an Expires field? -/
def isExpiresField : Field → Bool
  | .Acknowledgments _ => false
  | .Canonical _ => false
  | .Contact _ => false
  | .Encryption _ => false
  | .Expires _ => true
  | .Hiring _ => false
  | .Policy _ => false
  | .PreferredLanguages _ => false
  | .Extension _ _ => false

/-- Is a field a PreferredLanguages field? -/
def isPreferredLanguagesField : Field → Bool
  | .Acknowledgments _ => false
  | .Canonical _ => false
  | .Contact _ => false
  | .Encryption _ => false
  | .Expires _ => false
  | .Hiring _ => false
  | .Policy _ => false
  | .PreferredLanguages _ => true
  | .Extension _ _ => false

/-- Number of successfully parsed fields of a stream satisfying `p`. -/
def countFields (p : Field → Bool) (rs : List (Except ParseError Field)) : Nat :=
  (okFields rs).countP p

/-- The Acknowledgments payload of a field, if any. -/
def ackUrl : Field → Option Url
  | .Acknowledgments u => some u
  | .Canonical _ => none
  | .Contact _ => none
  | .Encryption _ => none
  | .Expires _ => none
  | .Hiring _ => none
  | .Policy _ => none
  | .PreferredLanguages _ => none
  | .Extension _ _ => none

/-- The Canonical payload of a field, if any. -/
def canUrl : Field → Option Url
  | .Acknowledgments _ => none
  | .Canonical u => some u
  | .Contact _ => none
  | .Encryption _ => none
  | .Expires _ => none
  | .Hiring _ => none
  | .Policy _ => none
  | .PreferredLanguages _ => none
  | .Extension _ _ => none

/-- The Contact payload of a field, if any. -/
def contactUrl : Field → Option Url
  | .Acknowledgments _ => none
  | .Canonical _ => none
  | .Contact u => some u
  | .Encryption _ => none
  | .Expires _ => none
  | .Hiring _ => none
  | .Policy _ => none
  | .PreferredLanguages _ => none
  | .Extension _ _ => none

/-- The Encryption payload of a field, if any. -/
def encUrl : Field → Option Url
  | .Acknowledgments _ => none
  | .Canonical _ => none
  | .Contact _ => none
  | .Encryption u => some u
  | .Expires _ => none
  | .Hiring _ => none
  | .Policy _ => none
  | .PreferredLanguages _ => none
  | .Extension _ _ => none

/-- The Hiring payload of a field, if any. -/
def hirUrl : Field → Option Url
  | .Acknowledgments _ => none
  | .Canonical _ => none
  | .Contact _ => none
  | .Encryption _ => none
  | .Expires _ => none
  | .Hiring u => some u
  | .Policy _ => none
  | .PreferredLanguages _ => none
  | .Extension _ _ => none

/-- The Policy payload of a field, if any. -/
def polUrl : Field → Option Url
  | .Acknowledgments _ => none
  | .Canonical _ => none
  | .Contact _ => none
  | .Encryption _ => none
  | .Expires _ => none
  | .Hiring _ => none
  | .Policy u => some u
  | .PreferredLanguages _ => none
  | .Extension _ _ => none

/-- The Extension payload of a field, if any. -/
def extPair : Field → Option (Str × Str)
  | .Acknowledgments _ => none
  | .Canonical _ => none
  | .Contact _ => none
  | .Encryption _ => none
  | .Expires _ => none
  | .Hiring _ => none
  | .Policy _ => none
  | .PreferredLanguages _ => none
  | .Extension a b => some (a, b)

/-- The contacts accumulator flattened to a list. -/
def contactsList : Option (Url × List Url) → List Url
  | none => []
  | some (f, r) => f :: r

/-- Zero or one, according to whether an optional singleton field slot is
already occupied. -/
def countOpt {α : Type} : Option α → Nat
  | none => 0
  | some _ => 1

/-- Modify the last element of a list of strings. -/
def modifyLast (g : Str → Str) : List Str → List Str
  | [] => []
  | [x] => [g x]
  | x :: y :: xs => x :: modifyLast g (y :: xs)

/-- A concrete field stream exercising multiplicity and order: one
Acknowledgments, two Contacts, one Expires, one Extension. -/
def sampleStream : List (Except ParseError Field) :=
  [.ok (.Acknowledgments ⟨("https://a.example/").data⟩),
   .ok (.Contact ⟨("https://b.example/").data⟩),
   .ok (.Expires ⟨0, 0⟩),
   .ok (.Contact ⟨("https://c.example/").data⟩),
   .ok (.Extension (("X-One").data) (("v1").data))]

/-- The document that aggregating `sampleStream` produces. -/
def sampleDoc : SecurityTxt :=
  ⟨[⟨("https://a.example/").data⟩], [],
   (⟨("https://b.example/").data⟩, [⟨("https://c.example/").data⟩]),
   [], ⟨0, 0⟩, [], [], [], [((("X-One").data), (("v1").data))]⟩

/-- `split_at_str` returns `none` exactly on pattern-free strings. -/
theorem split_at_str_eq_none : ∀ (s : Str) (p : Char), p ∉ s → split_at_str s p = none := by
  intro s p h
  induction s with
  | nil => rfl
  | cons c rest ih =>
    simp only [List.mem_cons, not_or] at h
    obtain ⟨h1, h2⟩ := h
    simp only [split_at_str, if_neg (Ne.symm h1), ih h2]

/-- `split_at_str` splits exactly at the first occurrence of the pattern. -/
theorem split_at_str_exact : ∀ (a : Str) (p : Char) (b : Str), p ∉ a →
    split_at_str (a ++ p :: b) p = some (a, b) := by
  intro a p b h
  induction a with
  | nil => simp [split_at_str]
  | cons c rest ih =>
    simp only [List.mem_cons, not_or] at h
    obtain ⟨h1, h2⟩ := h
    simp only [List.cons_append, split_at_str, if_neg (Ne.symm h1), List.append_eq, ih h2]

/-- When the pattern occurs, `split_at_str` produces the part before the
first occurrence and everything after it, verbatim. -/
theorem split_at_str_mem : ∀ (s : Str) (p : Char), p ∈ s →
    ∃ a b, split_at_str s p = some (a, b) ∧ s = a ++ p :: b ∧ p ∉ a := by
  intro s p h
  induction s with
  | nil => cases h
  | cons c rest ih =>
    by_cases hc : c = p
    · subst hc
      exact ⟨[], rest, by simp [split_at_str], rfl, by simp⟩
    · have hrest : p ∈ rest := by
        rcases List.mem_cons.mp h with h' | h'
        · exact absurd h'.symm hc
        · exact h'
      obtain ⟨a, b, hsplit, hs, hna⟩ := ih hrest
      refine ⟨c :: a, b, ?_, by simp [hs], ?_⟩
      · simp only [split_at_str, if_neg hc, hsplit]
      · simp only [List.mem_cons, not_or]
        exact ⟨fun hpc => hc hpc.symm, hna⟩

/-- An unrecognised (lower-cased) name always dispatches to `Extension`,
keeping the original name. -/
theorem dispatch_extension (name value : Str) (h : to_lowercase name ∉ recognizedNames) :
    Field.dispatch name value = .ok (.Extension name value) := by
  simp only [recognizedNames, List.mem_cons, List.not_mem_nil, or_false, not_or] at h
  obtain ⟨h1, h2, h3, h4, h5, h6, h7, h8⟩ := h
  simp only [Field.dispatch, if_neg h1, if_neg h2, if_neg h3, if_neg h4, if_neg h5,
    if_neg h6, if_neg h7, if_neg h8]

/-- For recognised names, dispatch depends only on the lower-cased name. -/
theorem dispatch_congr (n1 n2 value : Str) (h12 : to_lowercase n1 = to_lowercase n2)
    (hrec : to_lowercase n1 ∈ recognizedNames) :
    Field.dispatch n1 value = Field.dispatch n2 value := by
  simp only [recognizedNames, List.mem_cons, List.not_mem_nil, or_false] at hrec
  unfold Field.dispatch
  rw [← h12]
  rcases hrec with h | h | h | h | h | h | h | h <;> simp [h]

/-- No dispatch branch can yield an `Expires` field: the timestamp parser
(`parse_rfc5322_datetime`) fails on every input. -/
theorem dispatch_ne_expires (name value : Str) (dt : DateTimeFixedOffset) :
    Field.dispatch name value ≠ .ok (.Expires dt) := by
  unfold Field.dispatch
  split_ifs <;>
    first
      | ((unfold parse_rfc5322_datetime; split_ifs <;> simp [Except.map]); done)
      | ((cases h : collectTags (splitOnChar value ',') <;> simp [h, Except.map]); done)
      | ((cases h : Url.parse value <;> simp [h, Except.map]); done)
      | simp

/-- `Field::from_str` can never produce an `Expires` field. -/
theorem from_str_ne_expires (line : Str) (dt : DateTimeFixedOffset) :
    Field.from_str line ≠ .ok (.Expires dt) := by
  unfold Field.from_str
  cases h : split_at_str line ':' with
  | none => simp
  | some ab => exact dispatch_ne_expires ab.1 ab.2 dt

/-- The per-line stream entry: comments produce nothing, any other line
produces exactly its `Field::from_str` result. -/
theorem lineEntry_eq (l : Str) :
    lineEntry l = if isCommentLine l then none else some (Field.from_str l) := by
  cases l with
  | nil =>
    have : isCommentLine ([] : Str) = false := rfl
    rw [this]
    cases h : Field.from_str [] <;> simp [lineEntry, Line.from_str, h, Except.map]
  | cons c rest =>
    by_cases hc : c = '#'
    · subst hc
      simp [lineEntry, Line.from_str, isCommentLine]
    · have hcomm : isCommentLine (c :: rest) = false := by
        simp [isCommentLine, hc]
      rw [hcomm]
      cases h : Field.from_str (c :: rest) <;>
        simp [lineEntry, Line.from_str, if_neg hc, h, Except.map]

/-- The field stream is the per-line `Field::from_str` results of the
non-comment lines, in order. -/
theorem filterMap_lineEntry : ∀ ls : List Str,
    ls.filterMap lineEntry = (ls.filter (fun l => !isCommentLine l)).map Field.from_str := by
  intro ls
  induction ls with
  | nil => rfl
  | cons l ls ih =>
    rw [List.filterMap_cons, List.filter_cons, lineEntry_eq]
    by_cases hc : isCommentLine l
    · simp [hc, ih]
    · simp [hc, ih]

/-- `Field.from_str` after splitting: the two halves reach the dispatcher. -/
theorem from_str_split (name value : Str) (h : (':') ∉ name) :
    Field.from_str (name ++ (':') :: value) = Field.dispatch name value := by
  unfold Field.from_str
  rw [split_at_str_exact name ':' value h]

/-- C1: code bug.  Parsing `"Contact:https://example.com/security\nExpires:2025-01-01T00:00:00Z"`
in document mode does not succeed: the Expires value parser is
`DateTime::parse_from_str(string, "")` with an empty format string, which
rejects every nonempty value with chrono's "trailing input" error, so the
document parse fails at the Expires line instead of producing the document
the claim describes. -/
theorem c1_scenario_fails :
    parse (("Contact:https://example.com/security\nExpires:2025-01-01T00:00:00Z").data)
      = .error ⟨("trailing input").data⟩
  ∧ parse_rfc5322_datetime (("2025-01-01T00:00:00Z").data)
      = .error ⟨("trailing input").data⟩ :=
  ⟨by decide, by decide⟩

/-- C2: code bug.  A document with two Expires lines never reaches the
duplicate check: the first Expires line already fails with the timestamp
parse error ("trailing input"), which the stream delivers and the fold
returns as-is.  The duplicate check itself (second conjunct) does fire
with the DuplicateExpires error when a stream really delivers two parsed
Expires fields, as the claim intends. -/
theorem c2_duplicate_expires_unreachable :
    parse (("Contact:https://example.com/\nExpires:2025-01-01T00:00:00Z\nExpires:2026-01-01T00:00:00Z").data)
      = .error ⟨("trailing input").data⟩
  ∧ runFields initAgg
      [.ok (.Contact ⟨("https://example.com/").data⟩), .ok (.Expires ⟨0, 0⟩), .ok (.Expires ⟨1, 0⟩)]
      = .error ⟨("The Expires field must only appear once").data⟩ :=
  ⟨by decide, by decide⟩

/-- C3 counterexample: the input `"Preferred-Languages:en\nPreferred-Languages:fr"`
has an error-free field stream and no Contact field, yet document-mode
aggregation does not fail with the missing-Contact error (it fails with the
duplicate-Preferred-Languages error during the fold). -/
theorem c3_counterexample :
    allOk (parse_fields (("Preferred-Languages:en\nPreferred-Languages:fr").data)) = true
  ∧ countFields isContactField
      (parse_fields (("Preferred-Languages:en\nPreferred-Languages:fr").data)) = 0
  ∧ parse (("Preferred-Languages:en\nPreferred-Languages:fr").data)
      ≠ .error ⟨("Must have at least one Contact field").data⟩ :=
  ⟨by decide, by decide, by decide⟩

/-- C4: a field line is split at its first `:` — the name is everything
before it, the value everything after it verbatim — and a line without a
`:` fails with the missing-separator error. -/
theorem c4_first_colon_split (line : Str) :
    ((':') ∈ line →
      ∃ a b, split_at_str line ':' = some (a, b) ∧ line = a ++ (':') :: b ∧ (':') ∉ a)
  ∧ ((':') ∉ line → Field.from_str line = .error ⟨("Missing `:`").data⟩) := by
  constructor
  · exact split_at_str_mem line ':'
  · intro h
    unfold Field.from_str
    rw [split_at_str_eq_none line ':' h]

/-- C4 witness: a value containing further colons stays intact, and a line
without a separator fails. -/
theorem c4_witness :
    split_at_str (("Contact:https://example.com:8443/x").data) ':'
      = some ((("Contact").data), (("https://example.com:8443/x").data))
  ∧ Field.from_str (("no separator").data) = .error ⟨("Missing `:`").data⟩ :=
  ⟨by decide, (c4_first_colon_split (("no separator").data)).2 (by decide)⟩

/-- C5: field-name dispatch is case-insensitive — two names with the same
lower-casing and a recognised lower-casing parse identically — and a name
whose lower-casing is unrecognised always yields `Extension` with the
name's original case preserved, never failing. -/
theorem c5_case_insensitive_dispatch (n1 n2 name value : Str)
    (hn1 : (':') ∉ n1) (hn2 : (':') ∉ n2) (hname : (':') ∉ name)
    (h12 : to_lowercase n1 = to_lowercase n2)
    (hrec : to_lowercase n1 ∈ recognizedNames)
    (hext : to_lowercase name ∉ recognizedNames) :
    Field.from_str (n1 ++ (':') :: value) = Field.from_str (n2 ++ (':') :: value)
  ∧ Field.from_str (name ++ (':') :: value) = .ok (.Extension name value) := by
  constructor
  · rw [from_str_split n1 value hn1, from_str_split n2 value hn2]
    exact dispatch_congr n1 n2 value h12 hrec
  · rw [from_str_split name value hname]
    exact dispatch_extension name value hext

/-- C5 witness: `CONTACT` and `cOnTaCt` parse identically, and an
unrecognised `X-Custom` name becomes an extension with its case kept. -/
theorem c5_witness :
    Field.from_str (("CONTACT:https://example.com/").data)
      = Field.from_str (("cOnTaCt:https://example.com/").data)
  ∧ Field.from_str (("X-Custom:some value").data)
      = .ok (.Extension (("X-Custom").data) (("some value").data)) :=
  ⟨(c5_case_insensitive_dispatch (("CONTACT").data) (("cOnTaCt").data) (("X-Custom").data)
      (("https://example.com/").data) (by decide) (by decide) (by decide) (by decide)
      (by decide) (by decide)).1,
   (c5_case_insensitive_dispatch (("CONTACT").data) (("cOnTaCt").data) (("X-Custom").data)
      (("some value").data) (by decide) (by decide) (by decide) (by decide)
      (by decide) (by decide)).2⟩

/-- C6: a line beginning with `#` is classified as a comment holding the
remainder of the line and never fails, and the field stream consists of
exactly the `Field::from_str` results of the non-comment lines — comment
lines contribute no entry. -/
theorem c6_comment_lines :
    (∀ rest : Str, Line.from_str (('#') :: rest) = .ok (.Comment rest))
  ∧ (∀ s : Str, parse_fields s
      = ((rustLines s).filter (fun l => !isCommentLine l)).map Field.from_str) := by
  constructor
  · intro rest
    simp [Line.from_str]
  · intro s
    exact filterMap_lineEntry (rustLines s)

/-- C8: a blank line is a field line without `:`, so it contributes a
missing-separator error entry to the field stream instead of being
skipped like a comment. -/
theorem c8_blank_line (s : Str) :
    Field.from_str [] = .error ⟨("Missing `:`").data⟩
  ∧ (([] : Str) ∈ rustLines s →
      (Except.error ⟨("Missing `:`").data⟩ : Except ParseError Field) ∈ parse_fields s) := by
  constructor
  · rfl
  · intro h
    unfold parse_fields
    exact List.mem_filterMap.mpr ⟨[], h, rfl⟩

/-- C8 witness: the blank line of `"Contact:https://a\n\nExpires:z"` puts a
missing-separator error entry into the stream. -/
theorem c8_witness :
    (Except.error ⟨("Missing `:`").data⟩ : Except ParseError Field)
      ∈ parse_fields (("Contact:https://a\n\nExpires:z").data) :=
  (c8_blank_line (("Contact:https://a\n\nExpires:z").data)).2 (by decide)

/-- A token accepted by the language-tag parser is kept verbatim. -/
theorem langTag_from_str_ok (t : Str) (h : isOkExcept (LanguageTag.from_str t) = true) :
    LanguageTag.from_str t = .ok ⟨t⟩ := by
  unfold LanguageTag.from_str at h ⊢
  split_ifs at h ⊢ with hcond
  · rfl
  · simp [isOkExcept] at h

/-- Collecting tokens that all parse yields the verbatim token list. -/
theorem collectTags_ok (ts : List Str)
    (h : ∀ u ∈ ts, isOkExcept (LanguageTag.from_str u) = true) :
    collectTags ts = .ok (ts.map LanguageTag.mk) := by
  induction ts with
  | nil => rfl
  | cons t ts ih =>
    have ht := langTag_from_str_ok t (h t (by simp))
    have hrest := ih (fun u hu => h u (by simp [hu]))
    simp [collectTags, ht, hrest]

/-- Collecting stops at the first failing token and returns its error. -/
theorem collectTags_first_error (ts1 : List Str) (t : Str) (ts2 : List Str) (e : ParseError)
    (hok : ∀ u ∈ ts1, isOkExcept (LanguageTag.from_str u) = true)
    (herr : LanguageTag.from_str t = .error e) :
    collectTags (ts1 ++ t :: ts2) = .error e := by
  induction ts1 with
  | nil => simp [collectTags, herr]
  | cons u us ih =>
    have hu := langTag_from_str_ok u (hok u (by simp))
    have hrest := ih (fun v hv => hok v (by simp [hv]))
    simp [collectTags, hu, hrest]

/-- A `Preferred-Languages` line parses by splitting the value on `,` and
collecting each token through the language-tag parser. -/
theorem from_str_preferred_languages (value : Str) :
    Field.from_str ((("Preferred-Languages").data) ++ (':') :: value)
      = (collectTags (splitOnChar value ',')).map Field.PreferredLanguages := by
  rw [from_str_split _ _ (by decide)]
  rfl

/-- C7: the Preferred-Languages value is split on `,` into untrimmed
tokens; when every token parses as a language tag the field holds exactly
those tokens in order, and when some token fails the whole field fails with
the first failing token's error — no partial list is produced. -/
theorem c7_preferred_languages (value t : Str) (ts1 ts2 : List Str) :
    ((∀ u ∈ splitOnChar value ',', isOkExcept (LanguageTag.from_str u) = true) →
      Field.from_str ((("Preferred-Languages").data) ++ (':') :: value)
        = .ok (.PreferredLanguages ((splitOnChar value ',').map LanguageTag.mk)))
  ∧ (splitOnChar value ',' = ts1 ++ t :: ts2 →
     (∀ u ∈ ts1, isOkExcept (LanguageTag.from_str u) = true) →
     ∀ e : ParseError, LanguageTag.from_str t = .error e →
      Field.from_str ((("Preferred-Languages").data) ++ (':') :: value) = .error e) := by
  constructor
  · intro h
    rw [from_str_preferred_languages, collectTags_ok _ h]
    rfl
  · intro hsplit hok e herr
    rw [from_str_preferred_languages, hsplit, collectTags_first_error ts1 t ts2 e hok herr]
    rfl

/-- C7 witness: `en,fr` parses to the two tags in order, while ` en,fr`
fails because the untrimmed first token ` en` is not a valid tag. -/
theorem c7_witness :
    Field.from_str (("Preferred-Languages:en,fr").data)
      = .ok (.PreferredLanguages [⟨("en").data⟩, ⟨("fr").data⟩])
  ∧ Field.from_str (("Preferred-Languages: en,fr").data)
      = .error ⟨("invalid language tag").data⟩ :=
  ⟨(c7_preferred_languages (("en,fr").data) [] [] []).1 (by decide),
   (c7_preferred_languages ((" en,fr").data) ((" en").data) [] [(("fr").data)]).2
     (by decide) (by decide) ⟨("invalid language tag").data⟩ (by decide)⟩

/-- Pulling a successful field out of a stream cons. -/
theorem okFields_cons_ok (f : Field) (rs : List (Except ParseError Field)) :
    okFields (.ok f :: rs) = f :: okFields rs := by
  simp [okFields]

/-- A field among the successful fields of a stream is a stream entry. -/
theorem okFields_mem (rs : List (Except ParseError Field)) (f : Field)
    (h : f ∈ okFields rs) : Except.ok f ∈ rs := by
  unfold okFields at h
  obtain ⟨r, hr, hrf⟩ := List.mem_filterMap.mp h
  cases r with
  | ok g =>
    cases Option.some.inj hrf
    exact hr
  | error e => cases hrf

/-- No successful field of any input's field stream is an Expires field:
the timestamp parser fails on every value. -/
theorem parse_fields_no_expires (s : Str) :
    ∀ f ∈ okFields (parse_fields s), isExpiresField f = false := by
  intro f hf
  have hok : Except.ok f ∈ parse_fields s := okFields_mem _ f hf
  unfold parse_fields at hok
  obtain ⟨line, _hline, hentry⟩ := List.mem_filterMap.mp hok
  rw [lineEntry_eq] at hentry
  by_cases hc : isCommentLine line
  · rw [if_pos hc] at hentry
    cases hentry
  · rw [if_neg hc] at hentry
    have hfs : Field.from_str line = .ok f := Option.some.inj hentry
    cases f with
    | Expires dt => exact absurd hfs (from_str_ne_expires line dt)
    | Acknowledgments u => rfl
    | Canonical u => rfl
    | Contact u => rfl
    | Encryption u => rfl
    | Hiring u => rfl
    | Policy u => rfl
    | PreferredLanguages ls => rfl
    | Extension a b => rfl

/-- The field stream of any input contains zero Expires fields. -/
theorem parse_fields_countExpires (s : Str) :
    countFields isExpiresField (parse_fields s) = 0 := by
  unfold countFields
  rw [List.countP_eq_zero]
  intro f hf
  simp [parse_fields_no_expires s f hf]

/-- `countP` over a cons whose head satisfies the predicate. -/
theorem countP_cons_true (p : Field → Bool) (f : Field) (h : p f = true) (l : List Field) :
    List.countP p (f :: l) = List.countP p l + 1 := by
  simp [List.countP_cons, h]

/-- `countP` over a cons whose head falsifies the predicate. -/
theorem countP_cons_false (p : Field → Bool) (f : Field) (h : p f = false) (l : List Field) :
    List.countP p (f :: l) = List.countP p l := by
  simp [List.countP_cons, h]

/-- Folding an error-free field stream within the singleton-field budgets
always succeeds, and the final `contacts` / `expires` slots are empty
exactly when they started empty and no corresponding field occurred. -/
theorem runFields_total : ∀ (rs : List (Except ParseError Field)) (st : AggState),
    allOk rs = true →
    (okFields rs).countP isExpiresField + countOpt st.expires ≤ 1 →
    (okFields rs).countP isPreferredLanguagesField + countOpt st.preferred_languages ≤ 1 →
    ∃ st', runFields st rs = .ok st'
      ∧ (st'.contacts = none ↔ (st.contacts = none ∧ (okFields rs).countP isContactField = 0))
      ∧ (st'.expires = none ↔ (st.expires = none ∧ (okFields rs).countP isExpiresField = 0)) := by
  intro rs
  induction rs with
  | nil =>
    intro st _ _ _
    exact ⟨st, rfl, by simp [okFields], by simp [okFields]⟩
  | cons r rs ih =>
    intro st hok hexp hpl
    cases r with
    | error e => simp [allOk, isOkExcept] at hok
    | ok f =>
      have hok' : allOk rs = true := by
        unfold allOk at hok ⊢
        simp only [List.all_cons, Bool.and_eq_true] at hok
        exact hok.2
      rw [okFields_cons_ok] at hexp hpl ⊢
      cases f with
      | Acknowledgments u =>
        rw [countP_cons_false isExpiresField (Field.Acknowledgments u) rfl] at hexp
        rw [countP_cons_false isPreferredLanguagesField (Field.Acknowledgments u) rfl] at hpl
        rw [countP_cons_false isContactField (Field.Acknowledgments u) rfl, countP_cons_false isExpiresField (Field.Acknowledgments u) rfl]
        exact ih ⟨st.acknowledgments ++ [u], st.canonical, st.contacts, st.encryptions,
          st.expires, st.hiring, st.policies, st.preferred_languages, st.extensions⟩ hok' hexp hpl
      | Canonical u =>
        rw [countP_cons_false isExpiresField (Field.Canonical u) rfl] at hexp
        rw [countP_cons_false isPreferredLanguagesField (Field.Canonical u) rfl] at hpl
        rw [countP_cons_false isContactField (Field.Canonical u) rfl, countP_cons_false isExpiresField (Field.Canonical u) rfl]
        exact ih ⟨st.acknowledgments, st.canonical ++ [u], st.contacts, st.encryptions,
          st.expires, st.hiring, st.policies, st.preferred_languages, st.extensions⟩ hok' hexp hpl
      | Contact u =>
        rw [countP_cons_false isExpiresField (Field.Contact u) rfl] at hexp
        rw [countP_cons_false isPreferredLanguagesField (Field.Contact u) rfl] at hpl
        rw [countP_cons_true isContactField (Field.Contact u) rfl, countP_cons_false isExpiresField (Field.Contact u) rfl]
        cases hcs : st.contacts with
        | none =>
          obtain ⟨st', h1, h2, h3⟩ := ih ⟨st.acknowledgments, st.canonical, some (u, []),
              st.encryptions, st.expires, st.hiring, st.policies, st.preferred_languages,
              st.extensions⟩ hok' hexp hpl
          refine ⟨st', by simpa [runFields, stepField, hcs] using h1, ?_, h3⟩
          exact ⟨fun hx => absurd (h2.mp hx).1 (by simp),
            fun hx => absurd hx.2 (by simp)⟩
        | some pr =>
          obtain ⟨st', h1, h2, h3⟩ := ih ⟨st.acknowledgments, st.canonical,
              some (pr.1, pr.2 ++ [u]), st.encryptions, st.expires, st.hiring, st.policies,
              st.preferred_languages, st.extensions⟩ hok' hexp hpl
          refine ⟨st', by simpa [runFields, stepField, hcs] using h1, ?_, h3⟩
          exact ⟨fun hx => absurd (h2.mp hx).1 (by simp),
            fun hx => absurd hx.2 (by simp)⟩
      | Encryption u =>
        rw [countP_cons_false isExpiresField (Field.Encryption u) rfl] at hexp
        rw [countP_cons_false isPreferredLanguagesField (Field.Encryption u) rfl] at hpl
        rw [countP_cons_false isContactField (Field.Encryption u) rfl, countP_cons_false isExpiresField (Field.Encryption u) rfl]
        exact ih ⟨st.acknowledgments, st.canonical, st.contacts, st.encryptions ++ [u],
          st.expires, st.hiring, st.policies, st.preferred_languages, st.extensions⟩ hok' hexp hpl
      | Expires dt =>
        rw [countP_cons_true isExpiresField (Field.Expires dt) rfl] at hexp
        rw [countP_cons_false isPreferredLanguagesField (Field.Expires dt) rfl] at hpl
        rw [countP_cons_false isContactField (Field.Expires dt) rfl, countP_cons_true isExpiresField (Field.Expires dt) rfl]
        have hnone : st.expires = none := by
          cases hst : st.expires with
          | none => rfl
          | some d =>
            exfalso
            rw [hst] at hexp
            simp only [countOpt] at hexp
            omega
        rw [hnone] at hexp
        simp only [countOpt] at hexp
        obtain ⟨st', h1, h2, h3⟩ := ih ⟨st.acknowledgments, st.canonical, st.contacts,
            st.encryptions, some dt, st.hiring, st.policies, st.preferred_languages,
            st.extensions⟩ hok'
          (by show (okFields rs).countP isExpiresField + countOpt (some dt) ≤ 1
              simp only [countOpt]
              omega)
          hpl
        refine ⟨st', by simpa [runFields, stepField, hnone] using h1, h2, ?_⟩
        exact ⟨fun hx => absurd (h3.mp hx).1 (by simp),
          fun hx => absurd hx.2 (by simp)⟩
      | Hiring u =>
        rw [countP_cons_false isExpiresField (Field.Hiring u) rfl] at hexp
        rw [countP_cons_false isPreferredLanguagesField (Field.Hiring u) rfl] at hpl
        rw [countP_cons_false isContactField (Field.Hiring u) rfl, countP_cons_false isExpiresField (Field.Hiring u) rfl]
        exact ih ⟨st.acknowledgments, st.canonical, st.contacts, st.encryptions,
          st.expires, st.hiring ++ [u], st.policies, st.preferred_languages, st.extensions⟩ hok' hexp hpl
      | Policy u =>
        rw [countP_cons_false isExpiresField (Field.Policy u) rfl] at hexp
        rw [countP_cons_false isPreferredLanguagesField (Field.Policy u) rfl] at hpl
        rw [countP_cons_false isContactField (Field.Policy u) rfl, countP_cons_false isExpiresField (Field.Policy u) rfl]
        exact ih ⟨st.acknowledgments, st.canonical, st.contacts, st.encryptions,
          st.expires, st.hiring, st.policies ++ [u], st.preferred_languages, st.extensions⟩ hok' hexp hpl
      | PreferredLanguages ls =>
        rw [countP_cons_false isExpiresField (Field.PreferredLanguages ls) rfl] at hexp
        rw [countP_cons_true isPreferredLanguagesField (Field.PreferredLanguages ls) rfl] at hpl
        rw [countP_cons_false isContactField (Field.PreferredLanguages ls) rfl, countP_cons_false isExpiresField (Field.PreferredLanguages ls) rfl]
        have hnone : st.preferred_languages = none := by
          cases hst : st.preferred_languages with
          | none => rfl
          | some d =>
            exfalso
            rw [hst] at hpl
            simp only [countOpt] at hpl
            omega
        rw [hnone] at hpl
        simp only [countOpt] at hpl
        obtain ⟨st', h1, h2, h3⟩ := ih ⟨st.acknowledgments, st.canonical, st.contacts,
            st.encryptions, st.expires, st.hiring, st.policies, some ls,
            st.extensions⟩ hok' hexp
          (by show (okFields rs).countP isPreferredLanguagesField + countOpt (some ls) ≤ 1
              simp only [countOpt]
              omega)
        exact ⟨st', by simpa [runFields, stepField, hnone] using h1, h2, h3⟩
      | Extension s1 s2 =>
        rw [countP_cons_false isExpiresField (Field.Extension s1 s2) rfl] at hexp
        rw [countP_cons_false isPreferredLanguagesField (Field.Extension s1 s2) rfl] at hpl
        rw [countP_cons_false isContactField (Field.Extension s1 s2) rfl, countP_cons_false isExpiresField (Field.Extension s1 s2) rfl]
        exact ih ⟨st.acknowledgments, st.canonical, st.contacts, st.encryptions,
          st.expires, st.hiring, st.policies, st.preferred_languages,
          st.extensions ++ [(s1, s2)]⟩ hok' hexp hpl

/-- C3 (amended): for every input whose field stream completes without a
per-line error and which contains at most one Preferred-Languages field:
with no Contact field the aggregation fails with the missing-Contact error
(the Contact check runs before the Expires check, so this is also the error
when both required fields are missing), and with a Contact but no Expires
field it fails with the missing-Expires error. -/
theorem c3_required_field_checks (s : Str)
    (hok : allOk (parse_fields s) = true)
    (hpl : countFields isPreferredLanguagesField (parse_fields s) ≤ 1) :
    (countFields isContactField (parse_fields s) = 0 →
      parse s = .error ⟨("Must have at least one Contact field").data⟩)
  ∧ (countFields isContactField (parse_fields s) ≠ 0 →
     countFields isExpiresField (parse_fields s) = 0 →
      parse s = .error ⟨("Must have an Expires field").data⟩) := by
  have hexp0 : (okFields (parse_fields s)).countP isExpiresField = 0 :=
    parse_fields_countExpires s
  unfold countFields at hpl
  obtain ⟨st', hrun, hc, he⟩ := runFields_total (parse_fields s) initAgg hok
    (by show (okFields (parse_fields s)).countP isExpiresField + countOpt (none : Option DateTimeFixedOffset) ≤ 1
        simp only [countOpt, hexp0]
        omega)
    (by show (okFields (parse_fields s)).countP isPreferredLanguagesField + countOpt (none : Option (List LanguageTag)) ≤ 1
        simp only [countOpt]
        omega)
  have hparse : parse s = finishAgg st' := by
    unfold parse SecurityTxt.from_str aggregate
    rw [hrun]
  constructor
  · intro hcc
    unfold countFields at hcc
    have hnone : st'.contacts = none := hc.mpr ⟨rfl, hcc⟩
    rw [hparse]
    unfold finishAgg
    rw [hnone]
  · intro hcc _hee
    unfold countFields at hcc
    have hsome : st'.contacts ≠ none := by
      intro hx
      exact hcc (hc.mp hx).2
    obtain ⟨cs, hcs⟩ := Option.ne_none_iff_exists'.mp hsome
    have hexpn : st'.expires = none := he.mpr ⟨rfl, hexp0⟩
    rw [hparse]
    unfold finishAgg
    rw [hcs, hexpn]

/-- C3 witness: the empty document fails with the missing-Contact error,
and a document with only a Contact line fails with the missing-Expires
error. -/
theorem c3_witness :
    parse ([] : Str) = .error ⟨("Must have at least one Contact field").data⟩
  ∧ parse (("Contact:https://example.com/").data)
      = .error ⟨("Must have an Expires field").data⟩ :=
  ⟨(c3_required_field_checks [] (by decide) (by decide)).1 (by decide),
   (c3_required_field_checks (("Contact:https://example.com/").data) (by decide) (by decide)).2
     (by decide) (by decide)⟩

/-- Folding a stream that succeeds appends each field's payload, in stream
order, to the matching sequence of the accumulator. -/
theorem runFields_lists : ∀ (rs : List (Except ParseError Field)) (st st' : AggState),
    runFields st rs = .ok st' →
    st'.acknowledgments = st.acknowledgments ++ (okFields rs).filterMap ackUrl
  ∧ st'.canonical = st.canonical ++ (okFields rs).filterMap canUrl
  ∧ contactsList st'.contacts = contactsList st.contacts ++ (okFields rs).filterMap contactUrl
  ∧ st'.encryptions = st.encryptions ++ (okFields rs).filterMap encUrl
  ∧ st'.hiring = st.hiring ++ (okFields rs).filterMap hirUrl
  ∧ st'.policies = st.policies ++ (okFields rs).filterMap polUrl
  ∧ st'.extensions = st.extensions ++ (okFields rs).filterMap extPair := by
  intro rs
  induction rs with
  | nil =>
    intro st st' h
    have hst : st = st' := by
      simpa [runFields] using h
    subst hst
    simp [okFields]
  | cons r rs ih =>
    intro st st' h
    cases r with
    | error e => simp [runFields] at h
    | ok f =>
      rw [okFields_cons_ok, List.filterMap_cons, List.filterMap_cons, List.filterMap_cons,
        List.filterMap_cons, List.filterMap_cons, List.filterMap_cons, List.filterMap_cons]
      cases f with
      | Acknowledgments u =>
        obtain ⟨e1, e2, e3, e4, e5, e6, e7⟩ := ih ⟨st.acknowledgments ++ [u], st.canonical,
            st.contacts, st.encryptions, st.expires, st.hiring, st.policies,
            st.preferred_languages, st.extensions⟩ st' h
        exact ⟨by simpa [ackUrl, List.append_assoc] using e1, by simpa [canUrl] using e2,
          by simpa [contactUrl] using e3, by simpa [encUrl] using e4,
          by simpa [hirUrl] using e5, by simpa [polUrl] using e6,
          by simpa [extPair] using e7⟩
      | Canonical u =>
        obtain ⟨e1, e2, e3, e4, e5, e6, e7⟩ := ih ⟨st.acknowledgments, st.canonical ++ [u],
            st.contacts, st.encryptions, st.expires, st.hiring, st.policies,
            st.preferred_languages, st.extensions⟩ st' h
        exact ⟨by simpa [ackUrl] using e1, by simpa [canUrl, List.append_assoc] using e2,
          by simpa [contactUrl] using e3, by simpa [encUrl] using e4,
          by simpa [hirUrl] using e5, by simpa [polUrl] using e6,
          by simpa [extPair] using e7⟩
      | Contact u =>
        cases hcs : st.contacts with
        | none =>
          have h' : runFields (⟨st.acknowledgments, st.canonical, some (u, []),
              st.encryptions, st.expires, st.hiring, st.policies, st.preferred_languages,
              st.extensions⟩ : AggState) rs = .ok st' := by
            simpa [runFields, stepField, hcs] using h
          obtain ⟨e1, e2, e3, e4, e5, e6, e7⟩ := ih _ st' h'
          exact ⟨by simpa [ackUrl] using e1, by simpa [canUrl] using e2,
            by simpa [contactUrl, contactsList, hcs] using e3, by simpa [encUrl] using e4,
            by simpa [hirUrl] using e5, by simpa [polUrl] using e6,
            by simpa [extPair] using e7⟩
        | some pr =>
          have h' : runFields (⟨st.acknowledgments, st.canonical, some (pr.1, pr.2 ++ [u]),
              st.encryptions, st.expires, st.hiring, st.policies, st.preferred_languages,
              st.extensions⟩ : AggState) rs = .ok st' := by
            simpa [runFields, stepField, hcs] using h
          obtain ⟨e1, e2, e3, e4, e5, e6, e7⟩ := ih _ st' h'
          exact ⟨by simpa [ackUrl] using e1, by simpa [canUrl] using e2,
            by simpa [contactUrl, contactsList, hcs, List.append_assoc] using e3,
            by simpa [encUrl] using e4,
            by simpa [hirUrl] using e5, by simpa [polUrl] using e6,
            by simpa [extPair] using e7⟩
      | Encryption u =>
        obtain ⟨e1, e2, e3, e4, e5, e6, e7⟩ := ih ⟨st.acknowledgments, st.canonical,
            st.contacts, st.encryptions ++ [u], st.expires, st.hiring, st.policies,
            st.preferred_languages, st.extensions⟩ st' h
        exact ⟨by simpa [ackUrl] using e1, by simpa [canUrl] using e2,
          by simpa [contactUrl] using e3, by simpa [encUrl, List.append_assoc] using e4,
          by simpa [hirUrl] using e5, by simpa [polUrl] using e6,
          by simpa [extPair] using e7⟩
      | Expires dt =>
        cases hde : st.expires with
        | some d =>
          rw [runFields] at h
          simp [stepField, hde] at h
        | none =>
          have h' : runFields (⟨st.acknowledgments, st.canonical, st.contacts,
              st.encryptions, some dt, st.hiring, st.policies, st.preferred_languages,
              st.extensions⟩ : AggState) rs = .ok st' := by
            simpa [runFields, stepField, hde] using h
          obtain ⟨e1, e2, e3, e4, e5, e6, e7⟩ := ih _ st' h'
          exact ⟨by simpa [ackUrl] using e1, by simpa [canUrl] using e2,
            by simpa [contactUrl] using e3, by simpa [encUrl] using e4,
            by simpa [hirUrl] using e5, by simpa [polUrl] using e6,
            by simpa [extPair] using e7⟩
      | Hiring u =>
        obtain ⟨e1, e2, e3, e4, e5, e6, e7⟩ := ih ⟨st.acknowledgments, st.canonical,
            st.contacts, st.encryptions, st.expires, st.hiring ++ [u], st.policies,
            st.preferred_languages, st.extensions⟩ st' h
        exact ⟨by simpa [ackUrl] using e1, by simpa [canUrl] using e2,
          by simpa [contactUrl] using e3, by simpa [encUrl] using e4,
          by simpa [hirUrl, List.append_assoc] using e5, by simpa [polUrl] using e6,
          by simpa [extPair] using e7⟩
      | Policy u =>
        obtain ⟨e1, e2, e3, e4, e5, e6, e7⟩ := ih ⟨st.acknowledgments, st.canonical,
            st.contacts, st.encryptions, st.expires, st.hiring, st.policies ++ [u],
            st.preferred_languages, st.extensions⟩ st' h
        exact ⟨by simpa [ackUrl] using e1, by simpa [canUrl] using e2,
          by simpa [contactUrl] using e3, by simpa [encUrl] using e4,
          by simpa [hirUrl] using e5, by simpa [polUrl, List.append_assoc] using e6,
          by simpa [extPair] using e7⟩
      | PreferredLanguages ls =>
        cases hde : st.preferred_languages with
        | some d =>
          rw [runFields] at h
          simp [stepField, hde] at h
        | none =>
          have h' : runFields (⟨st.acknowledgments, st.canonical, st.contacts,
              st.encryptions, st.expires, st.hiring, st.policies, some ls,
              st.extensions⟩ : AggState) rs = .ok st' := by
            simpa [runFields, stepField, hde] using h
          obtain ⟨e1, e2, e3, e4, e5, e6, e7⟩ := ih _ st' h'
          exact ⟨by simpa [ackUrl] using e1, by simpa [canUrl] using e2,
            by simpa [contactUrl] using e3, by simpa [encUrl] using e4,
            by simpa [hirUrl] using e5, by simpa [polUrl] using e6,
            by simpa [extPair] using e7⟩
      | Extension s1 s2 =>
        obtain ⟨e1, e2, e3, e4, e5, e6, e7⟩ := ih ⟨st.acknowledgments, st.canonical,
            st.contacts, st.encryptions, st.expires, st.hiring, st.policies,
            st.preferred_languages, st.extensions ++ [(s1, s2)]⟩ st' h
        exact ⟨by simpa [ackUrl] using e1, by simpa [canUrl] using e2,
          by simpa [contactUrl] using e3, by simpa [encUrl] using e4,
          by simpa [hirUrl] using e5, by simpa [polUrl] using e6,
          by simpa [extPair, List.append_assoc] using e7⟩

/-- C9: when aggregation of a field stream succeeds, every sequence of the
document (acknowledgments, canonical, contacts, encryptions, hiring,
policies, extensions) is exactly the in-order projection of the stream's
fields — same multiplicity, same order; and the field stream itself is the
per-line parse of the input's non-comment lines in line order. -/
theorem c9_sequences_in_order (rs : List (Except ParseError Field)) (doc : SecurityTxt)
    (h : aggregate rs = .ok doc) :
    doc.acknowledgments = (okFields rs).filterMap ackUrl
  ∧ doc.canonical = (okFields rs).filterMap canUrl
  ∧ doc.contacts.1 :: doc.contacts.2 = (okFields rs).filterMap contactUrl
  ∧ doc.encryptions = (okFields rs).filterMap encUrl
  ∧ doc.hiring = (okFields rs).filterMap hirUrl
  ∧ doc.policies = (okFields rs).filterMap polUrl
  ∧ doc.extensions = (okFields rs).filterMap extPair
  ∧ (∀ s : Str, parse_fields s
      = ((rustLines s).filter (fun l => !isCommentLine l)).map Field.from_str) := by
  cases hrun : runFields initAgg rs with
  | error e =>
    unfold aggregate at h
    rw [hrun] at h
    cases h
  | ok st =>
    have hfin : finishAgg st = .ok doc := by
      unfold aggregate at h
      rw [hrun] at h
      exact h
    obtain ⟨e1, e2, e3, e4, e5, e6, e7⟩ := runFields_lists rs initAgg st hrun
    unfold finishAgg at hfin
    cases hc : st.contacts with
    | none =>
      rw [hc] at hfin
      cases hfin
    | some cs =>
      rw [hc] at hfin
      cases hde : st.expires with
      | none =>
        rw [hde] at hfin
        cases hfin
      | some dt =>
        rw [hde] at hfin
        injection hfin with hfin
        subst hfin
        rw [hc] at e3
        refine ⟨by simpa [initAgg] using e1, by simpa [initAgg] using e2, ?_,
          by simpa [initAgg] using e4, by simpa [initAgg] using e5,
          by simpa [initAgg] using e6, by simpa [initAgg] using e7,
          fun s => filterMap_lineEntry (rustLines s)⟩
        obtain ⟨cf, cr⟩ := cs
        simpa [contactsList, initAgg] using e3

/-- C9 witness: aggregating `sampleStream` succeeds and each sequence of
the resulting document equals the in-order projection of the stream. -/
theorem c9_witness :
    sampleDoc.acknowledgments = (okFields sampleStream).filterMap ackUrl
  ∧ sampleDoc.canonical = (okFields sampleStream).filterMap canUrl
  ∧ sampleDoc.contacts.1 :: sampleDoc.contacts.2 = (okFields sampleStream).filterMap contactUrl
  ∧ sampleDoc.encryptions = (okFields sampleStream).filterMap encUrl
  ∧ sampleDoc.hiring = (okFields sampleStream).filterMap hirUrl
  ∧ sampleDoc.policies = (okFields sampleStream).filterMap polUrl
  ∧ sampleDoc.extensions = (okFields sampleStream).filterMap extPair := by
  have h := c9_sequences_in_order sampleStream sampleDoc (by decide)
  exact ⟨h.1, h.2.1, h.2.2.1, h.2.2.2.1, h.2.2.2.2.1, h.2.2.2.2.2.1, h.2.2.2.2.2.2.1⟩

/-- The head prepended to a nonempty list does not change the last element. -/
theorem getLast?_cons_ne_nil (c : Char) (l : Str) (h : l ≠ []) :
    (c :: l).getLast? = l.getLast? := by
  obtain ⟨d, ds, rfl⟩ := List.exists_cons_of_ne_nil h
  exact List.getLast?_cons_cons

/-- Unfolding equation of `splitInclusiveNewline` on the empty string. -/
theorem splitInc_nil : splitInclusiveNewline [] = [] := rfl

/-- Unfolding equation of `splitInclusiveNewline` on a cons cell. -/
theorem splitInc_cons (c : Char) (rest : Str) :
    splitInclusiveNewline (c :: rest)
      = if c = '\n' then [c] :: splitInclusiveNewline rest
        else
          match splitInclusiveNewline rest with
          | [] => [[c]]
          | l :: ls => (c :: l) :: ls := rfl

/-- `split_inclusive` yields no pieces only for the empty string. -/
theorem splitInc_ne_nil (s : Str) (h : s ≠ []) : splitInclusiveNewline s ≠ [] := by
  cases s with
  | nil => exact absurd rfl h
  | cons c rest =>
    rw [splitInc_cons]
    split_ifs
    · simp
    · cases hr : splitInclusiveNewline rest <;> simp

/-- The pieces of a nonempty string end with a nonempty piece whose last
character is the string's last character. -/
theorem splitInc_last : ∀ s : Str, s ≠ [] →
    ∃ ps p, splitInclusiveNewline s = ps ++ [p] ∧ p ≠ [] ∧ p.getLast? = s.getLast? := by
  intro s
  induction s with
  | nil => intro h; exact absurd rfl h
  | cons c rest ih =>
    intro _
    by_cases hr : rest = []
    · subst hr
      refine ⟨[], [c], ?_, by simp, rfl⟩
      rw [splitInc_cons]
      split_ifs <;> rfl
    · obtain ⟨ps, p, hsplit, hp, hlast⟩ := ih hr
      have hgl : (c :: rest).getLast? = rest.getLast? := getLast?_cons_ne_nil c rest hr
      by_cases hc : c = '\n'
      · refine ⟨[c] :: ps, p, ?_, hp, by rw [hgl, ← hlast]⟩
        rw [splitInc_cons, if_pos hc, hsplit, List.cons_append]
      · cases hps : ps with
        | nil =>
          rw [hps, List.nil_append] at hsplit
          refine ⟨[], c :: p, ?_, by simp, ?_⟩
          · rw [splitInc_cons, if_neg hc, hsplit]
            rfl
          · rw [getLast?_cons_ne_nil c p hp, hlast, hgl]
        | cons q qs =>
          rw [hps, List.cons_append] at hsplit
          refine ⟨(c :: q) :: qs, p, ?_, hp, by rw [hlast, hgl]⟩
          rw [splitInc_cons, if_neg hc, hsplit, List.cons_append]

/-- `modifyLast` over a list ending in `p` applies the function to `p`. -/
theorem modifyLast_concat (g : Str → Str) : ∀ (ps : List Str) (p : Str),
    modifyLast g (ps ++ [p]) = ps ++ [g p] := by
  intro ps
  induction ps with
  | nil => intro p; rfl
  | cons q qs ih =>
    intro p
    have hstep : modifyLast g (q :: (qs ++ [p])) = q :: modifyLast g (qs ++ [p]) := by
      cases hqs : qs ++ [p] with
      | nil => exact absurd hqs (by simp)
      | cons y ys => rfl
    rw [List.cons_append, hstep, ih p, List.cons_append]

/-- Appending a newline to a string not ending in one extends its last
inclusive piece by that newline. -/
theorem splitInc_append_newline : ∀ s : Str, s ≠ [] → s.getLast? ≠ some ('\n') →
    splitInclusiveNewline (s ++ [('\n')])
      = modifyLast (fun l => l ++ [('\n')]) (splitInclusiveNewline s) := by
  intro s
  induction s with
  | nil => intro h; exact absurd rfl h
  | cons c rest ih =>
    intro _ hlast
    by_cases hr : rest = []
    · subst hr
      have hc : c ≠ '\n' := fun hh => hlast (by simp [hh])
      simp [splitInc_cons, splitInc_nil, hc, modifyLast]
    · have hgl : (c :: rest).getLast? = rest.getLast? := getLast?_cons_ne_nil c rest hr
      have hlast' : rest.getLast? ≠ some ('\n') := by
        rw [← hgl]
        exact hlast
      have ihr := ih hr hlast'
      have hne := splitInc_ne_nil rest hr
      obtain ⟨y, ys, hys⟩ := List.exists_cons_of_ne_nil hne
      by_cases hc : c = '\n'
      · subst hc
        rw [List.cons_append, splitInc_cons, if_pos rfl, ihr]
        rw [splitInc_cons, if_pos rfl, hys]
        rfl
      · rw [List.cons_append, splitInc_cons, if_neg hc, ihr]
        rw [splitInc_cons, if_neg hc, hys]
        cases ys with
        | nil => rfl
        | cons z zs => rfl

/-- Appending a newline to a line not ending in `\n` or `\r` does not
change its `lines`-image. -/
theorem lineMap_append_newline (p : Str) (hp : p.getLast? ≠ some ('\n'))
    (hr : p.getLast? ≠ some ('\r')) : lineMap (p ++ [('\n')]) = lineMap p := by
  unfold lineMap
  rw [if_pos (List.getLast?_concat p), List.dropLast_concat, if_neg hr, if_neg hp]

/-- For a nonempty input whose last character is neither `\n` nor `\r`,
appending one newline leaves the line list unchanged. -/
theorem rustLines_append_newline (s : Str) (h : s ≠ []) (h1 : s.getLast? ≠ some ('\n'))
    (h2 : s.getLast? ≠ some ('\r')) : rustLines (s ++ [('\n')]) = rustLines s := by
  obtain ⟨ps, p, hsplit, _hp, hlast⟩ := splitInc_last s h
  unfold rustLines
  rw [splitInc_append_newline s h h1, hsplit, modifyLast_concat, List.map_append,
    List.map_append, List.map_cons, List.map_nil, List.map_cons, List.map_nil,
    lineMap_append_newline p (by rw [hlast]; exact h1) (by rw [hlast]; exact h2)]

/-- C10 (amended): for a nonempty input whose last character is neither a
newline nor a carriage return, appending one trailing newline changes
nothing — the field stream and the parsed document are unchanged.  (The
restrictions are needed: the counterexample exhibits an input in each
excluded class — the empty input, one ending in `\n`, one ending in
`\r` — whose field stream an appended newline does change.) -/
theorem c10_trailing_newline (s : Str) (h : s ≠ [])
    (h1 : s.getLast? ≠ some ('\n')) (h2 : s.getLast? ≠ some ('\r')) :
    parse_fields (s ++ [('\n')]) = parse_fields s
  ∧ parse (s ++ [('\n')]) = parse s := by
  have hl := rustLines_append_newline s h h1 h2
  have hpf : parse_fields (s ++ [('\n')]) = parse_fields s := by
    unfold parse_fields
    rw [hl]
  refine ⟨hpf, ?_⟩
  unfold parse SecurityTxt.from_str
  rw [hpf]

/-- C10 witness: appending a newline to `"Contact:https://example.com/"`
changes neither the stream nor the parse result. -/
theorem c10_witness :
    parse_fields ((("Contact:https://example.com/").data) ++ [('\n')])
      = parse_fields (("Contact:https://example.com/").data)
  ∧ parse ((("Contact:https://example.com/").data) ++ [('\n')])
      = parse (("Contact:https://example.com/").data) :=
  c10_trailing_newline (("Contact:https://example.com/").data) (by decide) (by decide) (by decide)

/-- C10 counterexample: appending a trailing newline is not harmless for
every input — the empty input gains a blank-line error entry, an input
already ending in `\n` gains one too, and an input ending in `\r` changes
its last value ( `\r\n` is stripped as one terminator). -/
theorem c10_counterexample :
    parse_fields ([] : Str) ≠ parse_fields [('\n')]
  ∧ parse ([] : Str) ≠ parse [('\n')]
  ∧ parse_fields (("a\n").data) ≠ parse_fields (("a\n\n").data)
  ∧ parse_fields (("X:a\r").data) ≠ parse_fields (("X:a\r\n").data) :=
  ⟨by decide, by decide, by decide, by decide⟩

end SecTxt
